import Mathlib

/-!
Verification development for the OceanAi document ingestion and retrieval
pipeline (src/backend/ingest.py, src/backend/vector_db/chroma_db.py,
src/backend/rag_engine.py).

Python strings are modelled as `List Char` in the algorithmic core and as
`String` at the API boundary.  Python dictionaries with string keys are
modelled as functions `String → Option MVal`.  Fallible collaborators
(extractors, embedder, vector store) are modelled with `Except String`.
-/

namespace OceanAi

/-- Metadata values stored in a document metadata mapping: strings or
natural numbers (the only kinds the pipeline ever stores). -/
inductive MVal where
  | s (v : String)
  | n (v : Nat)
deriving DecidableEq, Repr

/-- Python str() conversion of a metadata value, as used when a value is
interpolated into an f-string. -/
def MVal.toStr : MVal → String
  | .s v => v
  | .n v => toString v

/-- A chunk record as produced by DocumentChunker.chunk_document
(src/backend/ingest.py lines 119-130): a dict with keys id, content and
metadata. -/
structure ChunkRec where
  id : String
  content : String
  metadata : String → Option MVal

/-- True on every character of the list. -/
def allWhite (l : List Char) : Prop := ∀ c ∈ l, c.isWhitespace = true

instance (l : List Char) : Decidable (allWhite l) :=
  inferInstanceAs (Decidable (∀ c ∈ l, c.isWhitespace = true))

/-- Python str.strip modelled on char lists: drop whitespace from both
ends. -/
def trimL (l : List Char) : List Char :=
  ((l.dropWhile Char.isWhitespace).reverse.dropWhile Char.isWhitespace).reverse

/-- Python sep.join(docs) on char lists. -/
def joinSep (sep : List Char) : List (List Char) → List Char
  | [] => []
  | [p] => p
  | p :: q :: ps => p ++ sep ++ joinSep sep (q :: ps)

/-- Sum of the lengths of a list of char lists. -/
def sumLens (docs : List (List Char)) : Nat := (docs.map List.length).sum

/-- The running total maintained by langchain _merge_splits: the lengths of
the pending docs plus one separator length between each adjacent pair. -/
def totalOf (sep : List Char) (docs : List (List Char)) : Nat :=
  sumLens docs + sep.length * (docs.length - 1)

/-- Helper for splitting: push a char onto the first piece of a piece
list. -/
def consHead (c : Char) : List (List Char) → List (List Char)
  | [] => [[c]]
  | p :: ps => (c :: p) :: ps

/-- Python re.split with a literal (escaped) pattern, modelled on char
lists: split on non-overlapping leftmost occurrences of sep.  The fuel
argument bounds recursion depth; fuel = text.length always suffices since
every step consumes at least one character. -/
def splitOnF (sep : List Char) : Nat → List Char → List (List Char)
  | 0, text => [text]
  | fuel + 1, text =>
    if sep.isEmpty then [text]
    else if sep.isPrefixOf text then [] :: splitOnF sep fuel (text.drop sep.length)
    else
      match text with
      | [] => [[]]
      | c :: rest => consHead c (splitOnF sep fuel rest)

/-- Split text on every occurrence of sep, keeping empty pieces. -/
def splitOnL (sep text : List Char) : List (List Char) :=
  splitOnF sep text.length text

/-- Modelled from the spec: langchain _split_text_with_regex with
keep_separator=True, which is not part of src/.  The separator is kept and
attached to the start of the following piece, then empty pieces are
dropped. -/
def splitKeep (sep text : List Char) : List (List Char) :=
  match splitOnL sep text with
  | [] => []
  | p :: ps => (p :: ps.map (fun q => sep ++ q)).filter (fun q => !q.isEmpty)

/-- Does sep occur as a contiguous subsequence of text (Python re.search
with a literal pattern)? -/
def occursIn (sep : List Char) : List Char → Bool
  | [] => sep.isEmpty
  | c :: rest => sep.isPrefixOf (c :: rest) || occursIn sep rest

/-- Modelled from the spec: separator selection of langchain
RecursiveCharacterTextSplitter._split_text, which is not part of src/.
Walk the ordered separator list; an empty separator is chosen at once with
no finer separators left; the first separator occurring in the text is
chosen with the remaining finer separators kept for recursion; the default
is the last separator with no finer separators left. -/
def chooseSep (text : List Char) : List (List Char) → (List Char × List (List Char))
  | [] => ([], [])
  | [s] => if s.isEmpty then ([], []) else (s, [])
  | s :: s2 :: rest =>
    if s.isEmpty then ([], [])
    else if occursIn s text then (s, s2 :: rest)
    else chooseSep text (s2 :: rest)

/-- Python -.strip() then emptiness test of langchain _join_docs with
strip_whitespace=True: join the pending docs, strip, and drop the result
when empty. -/
def joinDocs (sep : List Char) (docs : List (List Char)) : Option (List Char) :=
  let text := trimL (joinSep sep docs)
  if text.isEmpty then none else some text

/-- Modelled from the spec: the pop loop of langchain _merge_splits, which
is not part of src/.  Drop docs from the front while the running total
exceeds the overlap budget, or while adding the next split (of length
dlen) would still exceed the chunk size. -/
def shrinkDoc (cs co : Nat) (sep : List Char) (dlen : Nat) : List (List Char) → List (List Char)
  | [] => []
  | x :: xs =>
    if totalOf sep (x :: xs) > co ∨
        (totalOf sep (x :: xs) + dlen + (if (x :: xs).length > 1 then sep.length else 0) > cs ∧
          totalOf sep (x :: xs) > 0) then
      shrinkDoc cs co sep dlen xs
    else x :: xs

/-- Modelled from the spec: the main loop of langchain _merge_splits,
which is not part of src/.  Greedily pack splits into docs of length at
most cs, flushing the pending docs when the next split would overflow and
retaining a tail of the pending docs as overlap. -/
def mergeGo (cs co : Nat) (sep : List Char) (curr : List (List Char)) :
    List (List Char) → List (List Char)
  | [] =>
    match joinDocs sep curr with
    | some doc => [doc]
    | none => []
  | d :: rest =>
    if totalOf sep curr + d.length + (if curr.length > 0 then sep.length else 0) > cs then
      match curr with
      | [] => mergeGo cs co sep [d] rest
      | x :: xs =>
        (match joinDocs sep (x :: xs) with
         | some doc => [doc]
         | none => []) ++
          mergeGo cs co sep (shrinkDoc cs co sep d.length (x :: xs) ++ [d]) rest
    else mergeGo cs co sep (curr ++ [d]) rest

/-- Modelled from the spec: langchain _merge_splits, which is not part of
src/. -/
def mergeSplits (cs co : Nat) (sep : List Char) (splits : List (List Char)) :
    List (List Char) :=
  mergeGo cs co sep [] splits

/-- Modelled from the spec: the accumulation loop of langchain
_split_text, which is not part of src/.  Splits shorter than the chunk
size are accumulated (in reverse) and merged; an oversized split flushes
the accumulator and is either emitted as is (no finer separators) or
re-split recursively through recFn. -/
def splitLoopG (cs co : Nat) (recFn : List Char → List (List Char)) (newSepsEmpty : Bool)
    (goods : List (List Char)) : List (List Char) → List (List Char)
  | [] => if goods.isEmpty then [] else mergeSplits cs co [] goods.reverse
  | s :: rest =>
    if s.length < cs then splitLoopG cs co recFn newSepsEmpty (s :: goods) rest
    else
      (if goods.isEmpty then [] else mergeSplits cs co [] goods.reverse) ++
        (if newSepsEmpty then [s] else recFn s) ++
        splitLoopG cs co recFn newSepsEmpty [] rest

/-- Modelled from the spec: langchain
RecursiveCharacterTextSplitter._split_text, which is not part of src/
(section 9 of the spec describes it: an explicit ordered list of separator
strategies tried in sequence per oversized segment).  The fuel argument
bounds the recursion depth; since every recursive call passes a strictly
shorter separator list, fuel = seps.length always suffices. -/
def splitTextF (cs co : Nat) : Nat → List (List Char) → List Char → List (List Char)
  | 0, _, _ => []
  | fuel + 1, seps, text =>
    if seps.isEmpty then []
    else
      splitLoopG cs co (fun s => splitTextF cs co fuel (chooseSep text seps).2 s)
        (chooseSep text seps).2.isEmpty []
        (if (chooseSep text seps).1.isEmpty then
          (text.map (fun c => [c])).filter (fun q => !q.isEmpty)
        else splitKeep (chooseSep text seps).1 text)

/-- The default separator list of RecursiveCharacterTextSplitter:
paragraph, line, word, character. -/
def defaultSeparators : List (List Char) := [['\n', '\n'], ['\n'], [' '], []]

/-- Modelled from the spec: langchain split_text with the default
separators, as constructed by DocumentChunker.__init__
(src/backend/ingest.py lines 109-113). -/
def splitText (cs co : Nat) (text : List Char) : List (List Char) :=
  splitTextF cs co defaultSeparators.length defaultSeparators text

/-- Python enumerate starting at i. -/
def enumGo (i : Nat) : List α → List (Nat × α)
  | [] => []
  | a :: as => (i, a) :: enumGo (i + 1) as

/-- DocumentChunker.chunk_document (src/backend/ingest.py lines 115-130):
split the text, then attach an id derived from the filename and the chunk
ordinal, and merge chunk_index into the metadata. -/
def chunkDocument (cs co : Nat) (text : String) (metadata : String → Option MVal) :
    List ChunkRec :=
  let chunks := (splitText cs co text.data).map String.mk
  (enumGo 0 chunks).map (fun p =>
    { id := (match metadata "filename" with
             | some v => MVal.toStr v
             | none => "doc") ++ "_" ++ toString p.1
      content := p.2
      metadata := fun k => if k = "chunk_index" then some (MVal.n p.1) else metadata k })

/-! ## Ingestion pipeline (src/backend/ingest.py, IngestionPipeline) -/

/-- An ingestion report: the dict returned by
IngestionPipeline.ingest_documents, with a status and a message. -/
structure Report where
  status : String
  message : String
deriving DecidableEq, Repr

/-- Split a char list on a single character (used for path components). -/
def splitChar (sep : Char) : List Char → List (List Char)
  | [] => [[]]
  | c :: rest => if c = sep then [] :: splitChar sep rest else consHead c (splitChar sep rest)

/-- Python pathlib Path(p).name: the last non-empty path component. -/
def pathName (p : String) : String :=
  String.mk (((splitChar '/' p.data).filter (fun q => !q.isEmpty)).getLastD [])

/-- Index of the last dot in a char list, counting from i. -/
def lastDotAux (i : Nat) : List Char → Option Nat
  | [] => none
  | c :: rest =>
    match lastDotAux (i + 1) rest with
    | some j => some j
    | none => if c = '.' then some i else none

/-- Python pathlib Path(p).suffix on a file name: the final extension with
its dot, empty when the name has no dot, starts with its only dot, or ends
with a dot. -/
def suffixOfName (name : List Char) : List Char :=
  match lastDotAux 0 name with
  | none => []
  | some i => if 0 < i ∧ i + 1 < name.length then name.drop i else []

/-- The lowercased extension of a file path: path.suffix.lower() of
src/backend/ingest.py line 162. -/
def extOf (p : String) : String :=
  String.mk ((suffixOfName (pathName p).data).map Char.toLower)

/-- The metadata dict built per document in ingest_documents
(src/backend/ingest.py lines 187-191). -/
def docMeta (filename doctype : String) : String → Option MVal := fun k =>
  if k = "filename" then some (MVal.s filename)
  else if k = "type" then some (MVal.s doctype)
  else if k = "section" then some (MVal.s "main")
  else none

/-- The collaborators of IngestionPipeline, injected in its constructor
(src/backend/ingest.py lines 147-153): extractors, chunker, embedder and
vector store.  The store state type, the selector type and the embedding
batch type are abstract; every collaborator may fail, which models a
raised exception. -/
structure IngestEnv (σ τ ε : Type) where
  extractText : String → Except String String
  extractPdf : String → Except String String
  extractJson : String → Except String String
  extractHtml : String → Except String (String × τ)
  chunk : String → (String → Option MVal) → Except String (List ChunkRec)
  embed : List String → Except String ε
  add : σ → List ChunkRec → ε → Except String σ

/-- The extraction and chunking loop of ingest_documents
(src/backend/ingest.py lines 160-194): dispatch on the lowercased
extension, extract, chunk with the per-document metadata, and accumulate
chunks; html files additionally record their selectors; unknown
extensions are skipped.  The first failure aborts the loop. -/
def collectChunks (env : IngestEnv σ τ ε) :
    List String → Except String (List ChunkRec × List (String × τ))
  | [] => .ok ([], [])
  | fp :: rest =>
    if extOf fp = ".txt" ∨ extOf fp = ".md" then
      match env.extractText fp with
      | .error e => .error e
      | .ok text =>
        match env.chunk text (docMeta (pathName fp) "text") with
        | .error e => .error e
        | .ok chunks =>
          match collectChunks env rest with
          | .error e => .error e
          | .ok (others, sels) => .ok (chunks ++ others, sels)
    else if extOf fp = ".pdf" then
      match env.extractPdf fp with
      | .error e => .error e
      | .ok text =>
        match env.chunk text (docMeta (pathName fp) "pdf") with
        | .error e => .error e
        | .ok chunks =>
          match collectChunks env rest with
          | .error e => .error e
          | .ok (others, sels) => .ok (chunks ++ others, sels)
    else if extOf fp = ".json" then
      match env.extractJson fp with
      | .error e => .error e
      | .ok text =>
        match env.chunk text (docMeta (pathName fp) "json") with
        | .error e => .error e
        | .ok chunks =>
          match collectChunks env rest with
          | .error e => .error e
          | .ok (others, sels) => .ok (chunks ++ others, sels)
    else if extOf fp = ".html" ∨ extOf fp = ".htm" then
      match env.extractHtml fp with
      | .error e => .error e
      | .ok (text, selectors) =>
        match env.chunk text (docMeta (pathName fp) "html") with
        | .error e => .error e
        | .ok chunks =>
          match collectChunks env rest with
          | .error e => .error e
          | .ok (others, sels) => .ok (chunks ++ others, (pathName fp, selectors) :: sels)
    else collectChunks env rest

/-- IngestionPipeline.ingest_documents (src/backend/ingest.py lines
155-212): collect all chunks, refuse an empty batch, embed all contents
in one pass, store everything in one call, and turn any failure into an
error report, leaving the store untouched.  The store insert is a single
call (ChromaDB collection.add applies the batch in one call), so failure
of any stage leaves the previous store value. -/
def ingestDocuments (env : IngestEnv σ τ ε) (store : σ) (filePaths : List String) :
    Report × σ :=
  match collectChunks env filePaths with
  | .error e => ({ status := "error", message := e }, store)
  | .ok (allChunks, _sels) =>
    if allChunks.isEmpty then
      ({ status := "error", message := "No valid documents to process" }, store)
    else
      match env.embed (allChunks.map ChunkRec.content) with
      | .error e => ({ status := "error", message := e }, store)
      | .ok embeddings =>
        match env.add store allChunks embeddings with
        | .error e => ({ status := "error", message := e }, store)
        | .ok store2 =>
          ({ status := "success",
             message := "Successfully ingested " ++ toString filePaths.length ++
               " documents with " ++ toString allChunks.length ++ " chunks" }, store2)

/-! ## Vector store (src/backend/vector_db/chroma_db.py) -/

/-- Errors raised by the vector store backend.  The spec names the
dimension disagreement failure DimensionMismatchError. -/
inductive DBError where
  | dimensionMismatch
deriving DecidableEq, Repr

/-- One stored record: id, document text, metadata and embedding vector
(vectors are modelled with rational coordinates). -/
structure CRec where
  id : String
  document : String
  metadata : String → Option MVal
  embedding : List ℚ

/-- Modelled from the spec: the state of a ChromaDB collection, which
lives inside the chromadb library and not in src/.  The dimension is
established by the first inserted batch and reset by collection
deletion. -/
structure Collection where
  dim : Option Nat
  records : List CRec

/-- The result dict of a ChromaDB query for a single query vector:
documents, metadatas and distances, each nested one level per query. -/
structure QueryResult where
  documents : List (List String)
  metadatas : List (List (String → Option MVal))
  distances : List (List ℚ)

/-- Zip ids, documents, metadatas and embeddings into records. -/
def zipRecords : List String → List String → List (String → Option MVal) →
    List (List ℚ) → List CRec
  | i :: is, d :: ds, m :: ms, e :: es => ⟨i, d, m, e⟩ :: zipRecords is ds ms es
  | _, _, _, _ => []

/-- Modelled from the spec: chromadb collection.add, which is not part of
src/.  Every vector must agree with the established dimension, else the
call fails with DimensionMismatchError; an empty collection establishes
its dimension from the first batch; records with duplicate ids are
overwritten (spec section 3). -/
def Collection.addRecs (col : Collection) (ids : List String) (docs : List String)
    (metas : List (String → Option MVal)) (embs : List (List ℚ)) :
    Except DBError Collection :=
  match col.dim, embs with
  | _, [] => .ok col
  | some d, e :: es =>
    if (e :: es).all (fun v => v.length == d) then
      .ok { dim := some d
            records := col.records.filter (fun r => !ids.contains r.id) ++
              zipRecords ids docs metas (e :: es) }
    else .error .dimensionMismatch
  | none, e :: es =>
    if (e :: es).all (fun v => v.length == e.length) then
      .ok { dim := some e.length
            records := col.records.filter (fun r => !ids.contains r.id) ++
              zipRecords ids docs metas (e :: es) }
    else .error .dimensionMismatch

/-- Squared L2 distance between two vectors (the default ChromaDB
space). -/
def sqDist (a b : List ℚ) : ℚ := ((a.zip b).map (fun p => (p.1 - p.2) ^ 2)).sum

/-- Modelled from the spec: chromadb collection.query for a single query
vector, which is not part of src/.  A query against an established
dimension of different length fails with DimensionMismatchError; a fresh
collection returns empty result lists; otherwise the records are ranked
by ascending distance and the best nResults are returned. -/
def Collection.query (col : Collection) (queryEmb : List ℚ) (nResults : Nat) :
    Except DBError QueryResult :=
  match col.dim with
  | none => .ok { documents := [[]], metadatas := [[]], distances := [[]] }
  | some d =>
    if queryEmb.length = d then
      .ok
        { documents :=
            [((col.records.map (fun r => (sqDist queryEmb r.embedding, r))).insertionSort
                (fun a b => a.1 ≤ b.1) |>.take nResults).map (fun p => p.2.document)]
          metadatas :=
            [((col.records.map (fun r => (sqDist queryEmb r.embedding, r))).insertionSort
                (fun a b => a.1 ≤ b.1) |>.take nResults).map (fun p => p.2.metadata)]
          distances :=
            [((col.records.map (fun r => (sqDist queryEmb r.embedding, r))).insertionSort
                (fun a b => a.1 ≤ b.1) |>.take nResults).map (fun p => p.1)] }
    else .error .dimensionMismatch

/-- ChromaVectorDB.add_documents (src/backend/vector_db/chroma_db.py lines
22-34): project ids, contents and metadatas out of the chunk dicts and
add them with the embeddings in one call.  Every chunk dict produced by
chunk_document carries an id, so the doc_i fallback of line 24 never
fires. -/
def addDocuments (col : Collection) (chunks : List ChunkRec) (embeddings : List (List ℚ)) :
    Except DBError Collection :=
  col.addRecs (chunks.map ChunkRec.id) (chunks.map ChunkRec.content)
    (chunks.map ChunkRec.metadata) embeddings

/-- A retrieval result as formatted by ChromaVectorDB.search: content,
metadata and distance. -/
structure RetrievalResult where
  content : String
  metadata : String → Option MVal
  distance : ℚ

/-- Zip three lists into triples. -/
def zip3L : List α → List β → List γ → List (α × β × γ)
  | a :: as, b :: bs, c :: cs => (a, b, c) :: zip3L as bs cs
  | _, _, _ => []

/-- ChromaVectorDB.search (src/backend/vector_db/chroma_db.py lines
36-53): query the collection, then format each ranked hit as a dict with
content, metadata and distance; result lists of the query are indexed in
lockstep (the Python loop runs over indices of documents[0]). -/
def searchDB (col : Collection) (queryEmbedding : List ℚ) (topK : Nat) :
    Except DBError (List RetrievalResult) :=
  match col.query queryEmbedding topK with
  | .error e => .error e
  | .ok results =>
    match results.documents with
    | [] => .ok []
    | docs0 :: _ =>
      if docs0.length > 0 then
        .ok ((zip3L docs0 (results.metadatas.headD []) (results.distances.headD [])).map
          (fun t => { content := t.1, metadata := t.2.1, distance := t.2.2 }))
      else .ok []

/-- ChromaVectorDB.delete_all (src/backend/vector_db/chroma_db.py lines
55-58): delete the collection and recreate it empty; the recreated
collection has no records and no established dimension. -/
def deleteAll (_col : Collection) : Collection := { dim := none, records := [] }

/-- RAGEngine.retrieve_context (src/backend/rag_engine.py lines 88-96):
embed the query with the shared embedder and delegate to the vector store
search, returning its results unchanged. -/
def retrieveContext (encode : String → List ℚ) (col : Collection) (query : String)
    (topK : Nat) : Except DBError (List RetrievalResult) :=
  searchDB col (encode query) topK

/-! ## Shared helper lemmas and witness fixtures for the pipeline -/

/-- The file extensions handled by ingest_documents
(src/backend/ingest.py lines 166-184). -/
def knownExts : List String := [".txt", ".md", ".pdf", ".json", ".html", ".htm"]

/-- A trivial concrete environment for witnesses: every collaborator
succeeds and produces nothing. -/
def envTrivial : IngestEnv Nat Unit Unit where
  extractText := fun _ => .ok ""
  extractPdf := fun _ => .ok ""
  extractJson := fun _ => .ok ""
  extractHtml := fun _ => .ok ("", ())
  chunk := fun _ _ => .ok []
  embed := fun _ => .ok ()
  add := fun s _ _ => .ok s

/-- A concrete environment whose embedding stage fails. -/
def envFailEmbed : IngestEnv Nat Unit Unit where
  extractText := fun _ => .ok "hello"
  extractPdf := fun _ => .ok ""
  extractJson := fun _ => .ok ""
  extractHtml := fun _ => .ok ("", ())
  chunk := fun t m => .ok [{ id := "a.txt_0", content := t, metadata := m }]
  embed := fun _ => .error "boom"
  add := fun s _ _ => .ok s

/-- A default chunk record, used only as the default of getD. -/
def dChunk : ChunkRec := { id := "", content := "", metadata := fun _ => none }

/-- The per-chunk record constructor used by chunk_document, abstracted
over the enumerated pair for reasoning; definitionally equal to the
lambda inside chunkDocument. -/
def mkChunk (meta : String → Option MVal) (p : Nat × String) : ChunkRec :=
  { id := (match meta "filename" with
           | some v => MVal.toStr v
           | none => "doc") ++ "_" ++ toString p.1
    content := p.2
    metadata := fun k => if k = "chunk_index" then some (MVal.n p.1) else meta k }

/-- A concrete metadata mapping carrying a filename, for witnesses. -/
def metaW : String → Option MVal := fun k =>
  if k = "filename" then some (MVal.s "f.txt") else none

theorem collectChunks_skip (env : IngestEnv σ τ ε) (fp : String) (paths : List String)
    (h : extOf fp ∉ knownExts) :
    collectChunks env (fp :: paths) = collectChunks env paths := by
  simp only [knownExts, List.mem_cons, List.not_mem_nil, or_false, not_or] at h
  obtain ⟨h1, h2, h3, h4, h5, h6⟩ := h
  simp only [collectChunks, h1, h2, h3, h4, h5, h6, or_self, if_false, ite_false]

theorem collectChunks_all_unknown (env : IngestEnv σ τ ε) :
    ∀ paths : List String, (∀ fp ∈ paths, extOf fp ∉ knownExts) →
      collectChunks env paths = .ok ([], []) := by
  intro paths h
  induction paths with
  | nil => rfl
  | cons fp rest ih =>
    rw [collectChunks_skip env fp rest (h fp (List.mem_cons_self fp rest))]
    exact ih fun q hq => h q (List.mem_cons_of_mem fp hq)

theorem ingest_of_collect_nil (env : IngestEnv σ τ ε) (s : σ) (paths : List String)
    (sels : List (String × τ)) (h : collectChunks env paths = .ok ([], sels)) :
    ingestDocuments env s paths =
      ({ status := "error", message := "No valid documents to process" }, s) := by
  unfold ingestDocuments
  rw [h]
  rfl

theorem ingest_store_unchanged_or_success (env : IngestEnv σ τ ε) (s : σ)
    (paths : List String) :
    (ingestDocuments env s paths).2 = s ∨
      (ingestDocuments env s paths).1.status = "success" := by
  unfold ingestDocuments
  rcases collectChunks env paths with e | ⟨chunks, sels⟩
  · left; rfl
  · simp only
    by_cases hne : chunks.isEmpty
    · rw [if_pos hne]; left; rfl
    · rw [if_neg hne]
      rcases env.embed (chunks.map ChunkRec.content) with e | embs
      · left; rfl
      · simp only
        rcases env.add s chunks embs with e | s2
        · left; rfl
        · right; rfl

/-! ## Claim theorems: ingestion pipeline -/

/-- C9: ingest_documents never propagates an exception: for every
environment (including environments whose extraction, chunking, embedding
or insertion stage fails) it returns a report whose status is success or
error. -/
theorem ingest_status_total (env : IngestEnv σ τ ε) (s : σ) (paths : List String) :
    (ingestDocuments env s paths).1.status = "success" ∨
      (ingestDocuments env s paths).1.status = "error" := by
  unfold ingestDocuments
  rcases collectChunks env paths with e | ⟨chunks, sels⟩
  · right; rfl
  · simp only
    by_cases hne : chunks.isEmpty
    · rw [if_pos hne]; right; rfl
    · rw [if_neg hne]
      rcases env.embed (chunks.map ChunkRec.content) with e | embs
      · right; rfl
      · simp only
        rcases env.add s chunks embs with e | s2
        · right; rfl
        · left; rfl

/-- C1: all-or-nothing batch semantics.  Whenever the returned report
carries status error the store is unchanged, and each failing stage
(chunk collection, embedding, insertion) yields an error report carrying
the failure message. -/
theorem ingest_failure_atomicity (env : IngestEnv σ τ ε) (s : σ) (paths : List String) :
    ((ingestDocuments env s paths).1.status = "error" → (ingestDocuments env s paths).2 = s) ∧
    (∀ e, collectChunks env paths = .error e →
      (ingestDocuments env s paths).1 = { status := "error", message := e }) ∧
    (∀ chunks sels e, collectChunks env paths = .ok (chunks, sels) →
      chunks.isEmpty = false → env.embed (chunks.map ChunkRec.content) = .error e →
      (ingestDocuments env s paths).1 = { status := "error", message := e }) ∧
    (∀ chunks sels embs e, collectChunks env paths = .ok (chunks, sels) →
      chunks.isEmpty = false → env.embed (chunks.map ChunkRec.content) = .ok embs →
      env.add s chunks embs = .error e →
      (ingestDocuments env s paths).1 = { status := "error", message := e }) := by
  refine ⟨?_, ?_, ?_, ?_⟩
  · intro herr
    rcases ingest_store_unchanged_or_success env s paths with h | h
    · exact h
    · exact absurd (h.symm.trans herr) (by decide)
  · intro e he
    unfold ingestDocuments
    rw [he]
  · intro chunks sels e hc hne hembed
    unfold ingestDocuments
    rw [hc]
    simp only [hne, Bool.false_eq_true, if_false, ite_false, hembed]
  · intro chunks sels embs e hc hne hembed hadd
    unfold ingestDocuments
    rw [hc]
    simp only [hne, Bool.false_eq_true, if_false, ite_false, hembed, hadd]

/-- Witness for C1: a concrete run whose embedding stage fails keeps the
store unchanged. -/
theorem ingest_failure_atomicity_witness :
    (ingestDocuments envFailEmbed (0 : Nat) ["a.txt"]).2 = 0 :=
  (ingest_failure_atomicity envFailEmbed 0 ["a.txt"]).1 (by decide)

/-- C2 counterexample: for the empty batch the code reports the message
with a capital N, not the lowercase message the claim states. -/
theorem ingest_empty_message_counterexample :
    (ingestDocuments envTrivial (0 : Nat) []).1.status = "error" ∧
    (ingestDocuments envTrivial (0 : Nat) []).1.message = "No valid documents to process" ∧
    ¬ (ingestDocuments envTrivial (0 : Nat) []).1.message = "no valid documents to process" := by
  decide

/-- C2 (amended): whenever the batch yields no chunks at all (empty batch
or every document producing zero chunks), the report has status error and
message "No valid documents to process", and the store is untouched. -/
theorem ingest_no_valid_documents_report (env : IngestEnv σ τ ε) (s : σ)
    (paths : List String) (sels : List (String × τ))
    (h : collectChunks env paths = .ok ([], sels)) :
    ingestDocuments env s paths =
      ({ status := "error", message := "No valid documents to process" }, s) :=
  ingest_of_collect_nil env s paths sels h

/-- Witness for C2: the empty batch. -/
theorem ingest_no_valid_documents_report_witness :
    ingestDocuments envTrivial (0 : Nat) [] =
      ({ status := "error", message := "No valid documents to process" }, 0) :=
  ingest_no_valid_documents_report envTrivial 0 [] [] rfl

/-- C10: files with an extension outside .txt, .md, .pdf, .json, .html,
.htm are silently skipped (they contribute no chunks and no per-file
error), and a batch of only such files yields the no-valid-documents
error report with the store untouched. -/
theorem unknown_extension_skipped (env : IngestEnv σ τ ε) (s : σ) :
    (∀ fp paths, extOf fp ∉ knownExts →
      collectChunks env (fp :: paths) = collectChunks env paths) ∧
    (∀ paths, (∀ fp ∈ paths, extOf fp ∉ knownExts) →
      ingestDocuments env s paths =
        ({ status := "error", message := "No valid documents to process" }, s)) := by
  refine ⟨fun fp paths h => collectChunks_skip env fp paths h, fun paths h => ?_⟩
  exact ingest_of_collect_nil env s paths [] (collectChunks_all_unknown env paths h)

/-- Witness for C10: a .png file is skipped and alone yields the error
report. -/
theorem unknown_extension_skipped_witness :
    collectChunks envTrivial ["img.png"] = collectChunks envTrivial ([] : List String) ∧
    ingestDocuments envTrivial (0 : Nat) ["img.png"] =
      ({ status := "error", message := "No valid documents to process" }, 0) :=
  ⟨(unknown_extension_skipped envTrivial 0).1 "img.png" [] (by decide),
   (unknown_extension_skipped envTrivial 0).2 ["img.png"] (by decide)⟩

/-! ## Claim theorems: vector store -/

theorem zip3L_map (f : α → β) (g : α → γ) (h : α → δ) :
    ∀ l : List α, zip3L (l.map f) (l.map g) (l.map h) = l.map (fun x => (f x, g x, h x))
  | [] => rfl
  | x :: xs => by simp only [List.map_cons, zip3L, zip3L_map f g h xs]

/-- C4: an insert whose vector length disagrees with the established
dimension fails with DimensionMismatchError, and a search whose query
vector length disagrees fails the same way. -/
theorem vector_db_dimension_mismatch (col : Collection) (d : Nat) (v e : List ℚ)
    (k : Nat) (chunks : List ChunkRec) (embs : List (List ℚ))
    (hdim : col.dim = some d) (he : e ∈ embs) (hel : e.length ≠ d) (hv : v.length ≠ d) :
    addDocuments col chunks embs = .error .dimensionMismatch ∧
    searchDB col v k = .error .dimensionMismatch := by
  constructor
  · cases embs with
    | nil => cases he
    | cons e0 es =>
      have hall : ¬ (((e0 :: es).all fun w => w.length == d) = true) := by
        intro htrue
        exact hel (by simpa using List.all_eq_true.mp htrue e he)
      simp only [addDocuments, Collection.addRecs, hdim]
      rw [if_neg hall]
  · simp only [searchDB, Collection.query, hdim]
    rw [if_neg hv]

/-- Witness for C4 (spec scenario C): a store with established dimension
384 rejects a 128-dimensional insert vector and a 128-dimensional query
vector. -/
theorem vector_db_dimension_mismatch_witness :
    addDocuments { dim := some 384, records := [] } []
        [List.replicate 128 (0 : ℚ)] = .error .dimensionMismatch ∧
    searchDB { dim := some 384, records := [] } (List.replicate 128 (0 : ℚ)) 5 =
      .error .dimensionMismatch :=
  vector_db_dimension_mismatch { dim := some 384, records := [] } 384
    (List.replicate 128 (0 : ℚ)) (List.replicate 128 (0 : ℚ)) 5 [] _
    rfl (List.mem_singleton.mpr rfl) (by simp) (by simp)

/-- C8: delete_all empties the store (any search on the fresh store
returns the empty list), it is idempotent, and it is safe on an
already-empty store. -/
theorem delete_all_semantics (col : Collection) (v : List ℚ) (k : Nat) (_hk : 0 < k) :
    searchDB (deleteAll col) v k = .ok [] ∧
    deleteAll (deleteAll col) = deleteAll col ∧
    deleteAll { dim := none, records := [] } = { dim := none, records := [] } :=
  ⟨rfl, rfl, rfl⟩

/-- Witness for C8 at a concrete store and k = 1. -/
theorem delete_all_semantics_witness :
    searchDB (deleteAll { dim := some 3, records := [] }) [1, 2] 1 = .ok [] ∧
    deleteAll (deleteAll { dim := some 3, records := [] }) =
      deleteAll { dim := some 3, records := [] } ∧
    deleteAll { dim := none, records := [] } = { dim := none, records := [] } :=
  delete_all_semantics { dim := some 3, records := [] } [1, 2] 1 (by decide)

theorem searchDB_dim_none (col : Collection) (v : List ℚ) (k : Nat)
    (hcd : col.dim = none) : searchDB col v k = .ok [] := by
  simp only [searchDB, Collection.query, hcd]
  rfl

theorem searchDB_dim_some (col : Collection) (d : Nat) (v : List ℚ) (k : Nat)
    (hcd : col.dim = some d) (hvl : v.length = d) :
    searchDB col v k =
      .ok ((((col.records.map (fun r => (sqDist v r.embedding, r))).insertionSort
          (fun a b => a.1 ≤ b.1)).take k).map
        (fun p => { content := p.2.document, metadata := p.2.metadata, distance := p.1 })) := by
  simp only [searchDB, Collection.query, hcd]
  rw [if_pos hvl]
  simp only [List.headD_cons]
  rw [zip3L_map]
  by_cases hlen :
      ((((col.records.map (fun r => (sqDist v r.embedding, r))).insertionSort
        (fun a b => a.1 ≤ b.1)).take k).map (fun p => p.2.document)).length > 0
  · rw [if_pos hlen]
    simp only [List.map_map]
    rfl
  · rw [if_neg hlen]
    have hnil : (((col.records.map (fun r => (sqDist v r.embedding, r))).insertionSort
        (fun a b => a.1 ≤ b.1)).take k) = [] := by
      have := Nat.eq_zero_of_not_pos hlen
      rw [List.length_map] at this
      exact List.length_eq_zero.mp this
    rw [hnil]
    rfl

theorem searchDB_dim_wrong (col : Collection) (d : Nat) (v : List ℚ) (k : Nat)
    (hcd : col.dim = some d) (hvl : v.length ≠ d) :
    searchDB col v k = .error .dimensionMismatch := by
  simp only [searchDB, Collection.query, hcd]
  rw [if_neg hvl]

/-- C7: search returns at most k results ordered ascending by distance,
and retrieve_context delegates to search without re-ranking,
deduplicating or filtering. -/
theorem search_topk_sorted (col : Collection) (v : List ℚ) (k : Nat)
    (res : List RetrievalResult) (_hk : 0 < k) (h : searchDB col v k = .ok res) :
    res.length ≤ k ∧
    List.Sorted (fun a b : RetrievalResult => a.distance ≤ b.distance) res ∧
    ∀ (encode : String → List ℚ) (q : String),
      retrieveContext encode col q k = searchDB col (encode q) k := by
  refine ⟨?_, ?_, fun _ _ => rfl⟩ <;>
  · rcases hcd : col.dim with _ | d
    · rw [searchDB_dim_none col v k hcd] at h
      injection h with h
      rw [← h]
      simp
    · by_cases hvl : v.length = d
      · rw [searchDB_dim_some col d v k hcd hvl] at h
        injection h with h
        rw [← h]
        haveI : IsTotal (ℚ × CRec) (fun a b => a.1 ≤ b.1) := ⟨fun a b => le_total _ _⟩
        haveI : IsTrans (ℚ × CRec) (fun a b => a.1 ≤ b.1) :=
          ⟨fun _ _ _ h1 h2 => le_trans h1 h2⟩
        first
        | · rw [List.length_map, List.length_take]
            exact Nat.min_le_left _ _
        | · exact List.Pairwise.map _ (fun a b hab => hab)
              (List.Pairwise.sublist (List.take_sublist _ _)
                (List.sorted_insertionSort _ _))
      · rw [searchDB_dim_wrong col d v k hcd hvl] at h
        exact absurd h (by simp)

/-- Witness for C7 on the empty store with k = 1. -/
theorem search_topk_sorted_witness :
    ([] : List RetrievalResult).length ≤ 1 ∧
    List.Sorted (fun a b : RetrievalResult => a.distance ≤ b.distance) [] ∧
    ∀ (encode : String → List ℚ) (q : String),
      retrieveContext encode { dim := none, records := [] } q 1 =
        searchDB { dim := none, records := [] } (encode q) 1 :=
  search_topk_sorted { dim := none, records := [] } [1] 1 [] (by decide) rfl

/-! ## Claim theorems: chunk identity and metadata -/

theorem enumGo_length : ∀ (l : List α) (i : Nat), (enumGo i l).length = l.length
  | [], _ => rfl
  | _ :: as, i => by simp [enumGo, enumGo_length as (i + 1)]

theorem enumGo_map_getD (f : Nat × α → β) :
    ∀ (l : List α) (start j : Nat) (d : β) (a : α), j < l.length →
      ((enumGo start l).map f).getD j d = f (start + j, l.getD j a)
  | [], _, j, _, _, hj => absurd hj (by simp)
  | x :: xs, start, 0, d, a, _ => by simp [enumGo]
  | x :: xs, start, j + 1, d, a, hj => by
    have hj2 : j < xs.length := by simpa using Nat.lt_of_succ_lt_succ hj
    simp only [enumGo, List.map_cons, List.getD_cons_succ]
    rw [enumGo_map_getD f xs (start + 1) j d a hj2]
    congr 2
    omega

theorem enumGo_map_fst (g : Nat → β) :
    ∀ (l : List α) (start : Nat),
      (enumGo start l).map (fun p => g p.1) = (List.range' start l.length).map g
  | [], _ => rfl
  | x :: xs, start => by
    simp only [enumGo, List.map_cons, List.length_cons, List.range'_succ]
    rw [enumGo_map_fst g xs (start + 1)]

/-- C5: every chunk produced by chunk_document has id filename_index, its
metadata is the input metadata overridden at chunk_index, and the
chunk_index values are exactly 0, 1, ... in source order. -/
theorem chunk_ids_metadata_contiguous (cs co : Nat) (text : String)
    (meta : String → Option MVal) (fname : String)
    (hf : meta "filename" = some (MVal.s fname)) :
    (∀ i, i < (chunkDocument cs co text meta).length →
      ((chunkDocument cs co text meta).getD i dChunk).id =
          fname ++ "_" ++ toString i ∧
        ((chunkDocument cs co text meta).getD i dChunk).metadata =
          (fun k => if k = "chunk_index" then some (MVal.n i) else meta k)) ∧
    (chunkDocument cs co text meta).map (fun c => c.metadata "chunk_index") =
      (List.range (chunkDocument cs co text meta).length).map (fun i => some (MVal.n i)) := by
  have hEq : chunkDocument cs co text meta =
      (enumGo 0 ((splitText cs co text.data).map String.mk)).map (mkChunk meta) := rfl
  have hlen : (chunkDocument cs co text meta).length =
      ((splitText cs co text.data).map String.mk).length := by
    rw [hEq, List.length_map, enumGo_length]
  constructor
  · intro i hi
    rw [hlen] at hi
    have hget := enumGo_map_getD (mkChunk meta)
      ((splitText cs co text.data).map String.mk) 0 i dChunk "" hi
    rw [Nat.zero_add] at hget
    constructor
    · rw [hEq, hget, mkChunk, hf]
      simp [MVal.toStr]
    · rw [hEq, hget]
      rfl
  · rw [hlen, hEq, List.map_map]
    have hcomp : ((fun c : ChunkRec => c.metadata "chunk_index") ∘ mkChunk meta) =
        (fun p : Nat × String => some (MVal.n p.1)) := by
      funext p
      simp [mkChunk]
    rw [hcomp, List.range_eq_range']
    exact enumGo_map_fst (fun i => some (MVal.n i)) _ 0

/-- Witness for C5 on a one-chunk document. -/
theorem chunk_ids_metadata_contiguous_witness :
    ((chunkDocument 500 50 "hi" metaW).getD 0 dChunk).id = "f.txt_0" ∧
    ((chunkDocument 500 50 "hi" metaW).getD 0 dChunk).metadata =
      (fun k => if k = "chunk_index" then some (MVal.n 0) else metaW k) ∧
    (chunkDocument 500 50 "hi" metaW).map (fun c => c.metadata "chunk_index") =
      (List.range (chunkDocument 500 50 "hi" metaW).length).map
        (fun i => some (MVal.n i)) := by
  have h := chunk_ids_metadata_contiguous 500 50 "hi" metaW "f.txt" rfl
  exact ⟨((h.1 0 (by decide)).1).trans (by decide), (h.1 0 (by decide)).2, h.2⟩

/-! ## Chunker lemmas: trimming, joining, merge loop -/

theorem trimL_eq_nil_iff (l : List Char) : trimL l = [] ↔ allWhite l := by
  unfold trimL allWhite
  constructor
  · intro h c hc
    rw [List.reverse_eq_nil_iff, List.dropWhile_eq_nil_iff] at h
    by_cases hcw : c.isWhitespace = true
    · exact hcw
    · exfalso
      have hsplit := List.takeWhile_append_dropWhile (p := Char.isWhitespace) (l := l)
      rw [← hsplit] at hc
      rcases List.mem_append.mp hc with h1 | h2
      · exact hcw (List.mem_takeWhile_imp h1)
      · exact hcw (h c (List.mem_reverse.mpr h2))
  · intro h
    have h1 : l.dropWhile Char.isWhitespace = [] :=
      List.dropWhile_eq_nil_iff.mpr (fun x hx => h x hx)
    simp [h1]

theorem trimL_length_le (l : List Char) : (trimL l).length ≤ l.length := by
  unfold trimL
  rw [List.length_reverse]
  calc ((l.dropWhile Char.isWhitespace).reverse.dropWhile Char.isWhitespace).length
      ≤ (l.dropWhile Char.isWhitespace).reverse.length :=
        (List.dropWhile_sublist Char.isWhitespace).length_le
    _ = (l.dropWhile Char.isWhitespace).length := List.length_reverse _
    _ ≤ l.length := (List.dropWhile_sublist Char.isWhitespace).length_le

theorem joinSep_nil_sep : ∀ docs : List (List Char), joinSep [] docs = docs.flatten
  | [] => rfl
  | [p] => by simp [joinSep]
  | p :: q :: ps => by
    simp only [joinSep, joinSep_nil_sep (q :: ps), List.flatten_cons, List.append_nil]

theorem sumLens_nil : sumLens [] = 0 := rfl

theorem sumLens_cons (x : List Char) (xs : List (List Char)) :
    sumLens (x :: xs) = x.length + sumLens xs := by simp [sumLens]

theorem sumLens_append (xs ys : List (List Char)) :
    sumLens (xs ++ ys) = sumLens xs + sumLens ys := by simp [sumLens]

theorem length_join_eq_sumLens (docs : List (List Char)) :
    docs.flatten.length = sumLens docs := by simp [sumLens]

theorem totalOf_nil_sep (docs : List (List Char)) : totalOf [] docs = sumLens docs := by
  simp [totalOf]

theorem joinDocs_nil_eq (docs : List (List Char)) :
    joinDocs [] docs =
      if (trimL docs.flatten).isEmpty then none else some (trimL docs.flatten) := by
  simp [joinDocs, joinSep_nil_sep]

theorem joinDocs_none_of_white (docs : List (List Char))
    (h : ∀ d ∈ docs, allWhite d) : joinDocs [] docs = none := by
  have hw : allWhite docs.flatten := by
    intro c hc
    rcases List.mem_flatten.mp hc with ⟨d, hd, hcd⟩
    exact h d hd c hcd
  rw [joinDocs_nil_eq, (trimL_eq_nil_iff _).mpr hw]
  rfl

theorem joinDocs_some_of_nonwhite (docs : List (List Char)) (d : List Char) (c : Char)
    (hd : d ∈ docs) (hc : c ∈ d) (hw : ¬ c.isWhitespace = true) :
    ∃ doc, joinDocs [] docs = some doc := by
  have hne : ¬ (trimL docs.flatten).isEmpty = true := by
    intro habs
    rw [List.isEmpty_iff] at habs
    exact hw ((trimL_eq_nil_iff _).mp habs c (List.mem_flatten.mpr ⟨d, hd, hc⟩))
  rw [joinDocs_nil_eq, if_neg hne]
  exact ⟨_, rfl⟩

theorem joinDocs_length (docs : List (List Char)) (doc : List Char)
    (h : joinDocs [] docs = some doc) : doc.length ≤ sumLens docs := by
  rw [joinDocs_nil_eq] at h
  by_cases he : (trimL docs.flatten).isEmpty = true
  · rw [if_pos he] at h
    cases h
  · rw [if_neg he] at h
    injection h with h
    rw [← h, ← length_join_eq_sumLens]
    exact trimL_length_le _

theorem shrinkDoc_cons_eq (cs co dlen : Nat) (x : List Char) (xs : List (List Char)) :
    shrinkDoc cs co [] dlen (x :: xs) =
      if sumLens (x :: xs) > co ∨ (sumLens (x :: xs) + dlen > cs ∧ sumLens (x :: xs) > 0)
      then shrinkDoc cs co [] dlen xs
      else x :: xs := by
  simp only [shrinkDoc, totalOf_nil_sep, List.length_nil, ite_self, Nat.add_zero]

theorem shrinkDoc_mem (cs co dlen : Nat) :
    ∀ (docs : List (List Char)) (y : List Char),
      y ∈ shrinkDoc cs co [] dlen docs → y ∈ docs
  | [], y, h => by cases h
  | x :: xs, y, h => by
    rw [shrinkDoc_cons_eq] at h
    by_cases hc : sumLens (x :: xs) > co ∨ (sumLens (x :: xs) + dlen > cs ∧ sumLens (x :: xs) > 0)
    · rw [if_pos hc] at h
      exact List.mem_cons_of_mem x (shrinkDoc_mem cs co dlen xs y h)
    · rw [if_neg hc] at h
      exact h

theorem shrinkDoc_spec (cs co dlen : Nat) :
    ∀ docs : List (List Char),
      sumLens (shrinkDoc cs co [] dlen docs) ≤ co ∧
        (sumLens (shrinkDoc cs co [] dlen docs) + dlen ≤ cs ∨
          sumLens (shrinkDoc cs co [] dlen docs) = 0)
  | [] => by simp [shrinkDoc, sumLens_nil]
  | x :: xs => by
    rw [shrinkDoc_cons_eq]
    by_cases hc : sumLens (x :: xs) > co ∨ (sumLens (x :: xs) + dlen > cs ∧ sumLens (x :: xs) > 0)
    · rw [if_pos hc]
      exact shrinkDoc_spec cs co dlen xs
    · rw [if_neg hc]
      push_neg at hc
      obtain ⟨h1, h2⟩ := hc
      refine ⟨h1, ?_⟩
      by_cases hbig : sumLens (x :: xs) + dlen > cs
      · have h3 := h2 hbig
        omega
      · omega

theorem mergeGo_cons_eq (cs co : Nat) (curr : List (List Char)) (d : List Char)
    (rest : List (List Char)) :
    mergeGo cs co [] curr (d :: rest) =
      if sumLens curr + d.length > cs then
        match curr with
        | [] => mergeGo cs co [] [d] rest
        | x :: xs =>
          (match joinDocs [] (x :: xs) with
           | some doc => [doc]
           | none => []) ++
            mergeGo cs co [] (shrinkDoc cs co [] d.length (x :: xs) ++ [d]) rest
      else mergeGo cs co [] (curr ++ [d]) rest := by
  simp only [mergeGo, totalOf_nil_sep, List.length_nil, ite_self, Nat.add_zero]

theorem mergeGo_bound (cs co : Nat) :
    ∀ (splits curr : List (List Char)),
      (∀ s ∈ splits, s.length < cs) → sumLens curr ≤ cs →
      ∀ c ∈ mergeGo cs co [] curr splits, c.length ≤ cs
  | [], curr, _, hcurr, c, hc => by
    simp only [mergeGo] at hc
    rcases hj : joinDocs [] curr with _ | doc <;> rw [hj] at hc
    · cases hc
    · rcases List.mem_singleton.mp hc with rfl
      exact le_trans (joinDocs_length curr c hj) hcurr
  | d :: rest, curr, hs, hcurr, c, hc => by
    have hd : d.length < cs := hs d (List.mem_cons_self d rest)
    have hrest : ∀ s ∈ rest, s.length < cs := fun s h => hs s (List.mem_cons_of_mem d h)
    rw [mergeGo_cons_eq] at hc
    by_cases hg : sumLens curr + d.length > cs
    · rw [if_pos hg] at hc
      cases curr with
      | nil =>
        exact mergeGo_bound cs co rest [d] hrest
          (by rw [sumLens_cons, sumLens_nil]; omega) c hc
      | cons x xs =>
        simp only at hc
        rcases List.mem_append.mp hc with hflush | hrec
        · rcases hj : joinDocs [] (x :: xs) with _ | doc <;> rw [hj] at hflush
          · cases hflush
          · rcases List.mem_singleton.mp hflush with rfl
            exact le_trans (joinDocs_length _ c hj) hcurr
        · have hspec := shrinkDoc_spec cs co d.length (x :: xs)
          refine mergeGo_bound cs co rest _ hrest ?_ c hrec
          rw [sumLens_append, sumLens_cons, sumLens_nil]
          rcases hspec.2 with h1 | h2
          · omega
          · omega
    · rw [if_neg hg] at hc
      refine mergeGo_bound cs co rest _ hrest ?_ c hc
      rw [sumLens_append, sumLens_cons, sumLens_nil]
      omega

theorem mergeGo_white (cs co : Nat) :
    ∀ (splits curr : List (List Char)),
      (∀ s ∈ splits, allWhite s) → (∀ x ∈ curr, allWhite x) →
      mergeGo cs co [] curr splits = []
  | [], curr, _, hcurr => by
    simp only [mergeGo, joinDocs_none_of_white curr hcurr]
  | d :: rest, curr, hs, hcurr => by
    have hd : allWhite d := hs d (List.mem_cons_self d rest)
    have hrest : ∀ s ∈ rest, allWhite s := fun s h => hs s (List.mem_cons_of_mem d h)
    rw [mergeGo_cons_eq]
    by_cases hg : sumLens curr + d.length > cs
    · rw [if_pos hg]
      cases curr with
      | nil =>
        exact mergeGo_white cs co rest [d]
          hrest (by intro x hx; rcases List.mem_singleton.mp hx with rfl; exact hd)
      | cons x xs =>
        simp only [joinDocs_none_of_white (x :: xs) hcurr, List.nil_append]
        refine mergeGo_white cs co rest _ hrest ?_
        intro y hy
        rcases List.mem_append.mp hy with h1 | h2
        · exact hcurr y (shrinkDoc_mem cs co d.length (x :: xs) y h1)
        · rcases List.mem_singleton.mp h2 with rfl
          exact hd
    · rw [if_neg hg]
      refine mergeGo_white cs co rest _ hrest ?_
      intro y hy
      rcases List.mem_append.mp hy with h1 | h2
      · exact hcurr y h1
      · rcases List.mem_singleton.mp h2 with rfl
        exact hd

theorem mergeGo_nonwhite (cs co : Nat) :
    ∀ (splits curr : List (List Char)),
      (∃ x, (x ∈ curr ∨ x ∈ splits) ∧ ∃ c ∈ x, ¬ c.isWhitespace = true) →
      mergeGo cs co [] curr splits ≠ [] := by
  intro splits
  induction splits with
  | nil =>
    intro curr h
    obtain ⟨x, hx, c, hc, hw⟩ := h
    rcases hx with hx | hx
    · rcases joinDocs_some_of_nonwhite curr x c hx hc hw with ⟨doc, hdoc⟩
      simp only [mergeGo, hdoc]
      exact List.cons_ne_nil doc []
    · cases hx
  | cons d rest ih =>
    intro curr h
    obtain ⟨x, hx, c, hc, hw⟩ := h
    rw [mergeGo_cons_eq]
    by_cases hg : sumLens curr + d.length > cs
    · rw [if_pos hg]
      cases curr with
      | nil =>
        refine ih [d] ⟨x, ?_, c, hc, hw⟩
        rcases hx with hx | hx
        · cases hx
        · rcases List.mem_cons.mp hx with rfl | hx2
          · exact Or.inl (List.mem_singleton.mpr rfl)
          · exact Or.inr hx2
      | cons y ys =>
        rcases hx with hx | hx
        · rcases joinDocs_some_of_nonwhite (y :: ys) x c hx hc hw with ⟨doc, hdoc⟩
          simp only [hdoc]
          intro habs
          exact List.cons_ne_nil doc _ (List.append_eq_nil.mp habs).1
        · intro habs
          rcases List.append_eq_nil.mp habs with ⟨_, habs2⟩
          refine ih (shrinkDoc cs co [] d.length (y :: ys) ++ [d]) ⟨x, ?_, c, hc, hw⟩ habs2
          rcases List.mem_cons.mp hx with rfl | hx2
          · exact Or.inl (List.mem_append.mpr (Or.inr (List.mem_singleton.mpr rfl)))
          · exact Or.inr hx2
    · rw [if_neg hg]
      refine ih (curr ++ [d]) ⟨x, ?_, c, hc, hw⟩
      rcases hx with hx | hx
      · exact Or.inl (List.mem_append.mpr (Or.inl hx))
      · rcases List.mem_cons.mp hx with rfl | hx2
        · exact Or.inl (List.mem_append.mpr (Or.inr (List.mem_singleton.mpr rfl)))
        · exact Or.inr hx2

/-! ## Chunker lemmas: splitting and separator choice -/

theorem consHead_ne_nil (c : Char) (S : List (List Char)) : consHead c S ≠ [] := by
  cases S <;> simp [consHead]

theorem splitOnF_ne_nil (sep : List Char) :
    ∀ (fuel : Nat) (text : List Char), splitOnF sep fuel text ≠ []
  | 0, text => by simp [splitOnF]
  | fuel + 1, text => by
    simp only [splitOnF]
    by_cases h1 : sep.isEmpty = true
    · rw [if_pos h1]
      exact List.cons_ne_nil _ _
    · rw [if_neg h1]
      by_cases h2 : sep.isPrefixOf text = true
      · rw [if_pos h2]
        exact List.cons_ne_nil _ _
      · rw [if_neg h2]
        cases text with
        | nil => exact List.cons_ne_nil _ _
        | cons c rest => exact consHead_ne_nil c _

theorem joinSep_cons_of_ne_nil (sep p : List Char) (S : List (List Char)) (h : S ≠ []) :
    joinSep sep (p :: S) = p ++ sep ++ joinSep sep S := by
  cases S with
  | nil => exact absurd rfl h
  | cons q qs => rfl

theorem joinSep_consHead (sep : List Char) (c : Char) (S : List (List Char)) (h : S ≠ []) :
    joinSep sep (consHead c S) = c :: joinSep sep S := by
  cases S with
  | nil => exact absurd rfl h
  | cons p ps =>
    cases ps with
    | nil => rfl
    | cons q qs => simp [consHead, joinSep]

theorem eq_append_drop_of_isPrefixOf :
    ∀ sep text : List Char, sep.isPrefixOf text = true →
      text = sep ++ text.drop sep.length
  | [], text, _ => by simp
  | a :: as, [], h => by cases h
  | a :: as, b :: bs, h => by
    simp only [List.isPrefixOf, Bool.and_eq_true, beq_iff_eq] at h
    obtain ⟨rfl, h2⟩ := h
    simpa using eq_append_drop_of_isPrefixOf as bs h2

theorem joinSep_splitOnF (sep : List Char) (hsep : ¬ sep.isEmpty = true) :
    ∀ (fuel : Nat) (text : List Char), text.length ≤ fuel →
      joinSep sep (splitOnF sep fuel text) = text
  | 0, text, h => by
    have htext : text = [] := List.length_eq_zero.mp (Nat.le_zero.mp h)
    subst htext
    rfl
  | fuel + 1, text, h => by
    simp only [splitOnF]
    rw [if_neg hsep]
    by_cases h2 : sep.isPrefixOf text = true
    · rw [if_pos h2]
      have hS := splitOnF_ne_nil sep fuel (text.drop sep.length)
      rw [joinSep_cons_of_ne_nil sep [] _ hS, List.nil_append]
      have hslen : 1 ≤ sep.length := by
        cases sep with
        | nil => exact absurd rfl hsep
        | cons a as => simp
      have hdl : (text.drop sep.length).length ≤ fuel := by
        rw [List.length_drop]
        omega
      rw [joinSep_splitOnF sep hsep fuel _ hdl]
      exact (eq_append_drop_of_isPrefixOf sep text h2).symm
    · rw [if_neg h2]
      cases text with
      | nil => rfl
      | cons c rest =>
        have hS := splitOnF_ne_nil sep fuel rest
        rw [joinSep_consHead sep c _ hS,
          joinSep_splitOnF sep hsep fuel rest (by simpa using Nat.le_of_succ_le_succ h)]

theorem joinSep_splitOnL (sep text : List Char) (hsep : ¬ sep.isEmpty = true) :
    joinSep sep (splitOnL sep text) = text :=
  joinSep_splitOnF sep hsep text.length text (le_refl _)

theorem flatten_filter_ne_empty (L : List (List Char)) :
    (L.filter (fun q => !q.isEmpty)).flatten = L.flatten := by
  induction L with
  | nil => rfl
  | cons p ps ih =>
    by_cases hp : p.isEmpty = true
    · have hpn : p = [] := List.isEmpty_iff.mp hp
      subst hpn
      simp [List.filter_cons, ih]
    · simp [List.filter_cons, hp, ih]

theorem joinSep_sep_append (sep q : List Char) (qs : List (List Char)) :
    joinSep sep ((sep ++ q) :: qs) = sep ++ joinSep sep (q :: qs) := by
  cases qs with
  | nil => rfl
  | cons r rs => simp [joinSep, List.append_assoc]

theorem flatten_cons_map_sep (sep : List Char) :
    ∀ (ps : List (List Char)) (p : List Char),
      (p :: ps.map (fun q => sep ++ q)).flatten = joinSep sep (p :: ps)
  | [], p => by simp [joinSep]
  | q :: qs, p => by
    have ih := flatten_cons_map_sep sep qs (sep ++ q)
    simp only [List.map_cons, List.flatten_cons] at ih ⊢
    rw [ih, joinSep_sep_append]
    cases qs with
    | nil => simp [joinSep]
    | cons r rs => simp [joinSep, List.append_assoc]

theorem splitKeep_flatten (sep text : List Char) (hsep : ¬ sep.isEmpty = true) :
    (splitKeep sep text).flatten = text := by
  unfold splitKeep
  rcases hS : splitOnL sep text with _ | ⟨p, ps⟩
  · exact absurd hS (splitOnF_ne_nil sep text.length text)
  · rw [flatten_filter_ne_empty, flatten_cons_map_sep]
    have hjoin := joinSep_splitOnL sep text hsep
    rw [hS] at hjoin
    exact hjoin

theorem splitKeep_chars (sep text q : List Char) (c : Char) (hsep : ¬ sep.isEmpty = true)
    (hq : q ∈ splitKeep sep text) (hc : c ∈ q) : c ∈ text := by
  rw [← splitKeep_flatten sep text hsep]
  exact List.mem_flatten.mpr ⟨q, hq, hc⟩

theorem splitKeep_cover (sep text : List Char) (c : Char) (hsep : ¬ sep.isEmpty = true)
    (hc : c ∈ text) : ∃ q ∈ splitKeep sep text, c ∈ q := by
  rw [← splitKeep_flatten sep text hsep] at hc
  exact List.mem_flatten.mp hc

theorem chooseSep_snd_lt (text : List Char) :
    ∀ seps : List (List Char), seps ≠ [] → (chooseSep text seps).2.length < seps.length
  | [], h => absurd rfl h
  | [s], _ => by
    simp only [chooseSep]
    by_cases hs : s.isEmpty = true
    · rw [if_pos hs]
      simp
    · rw [if_neg hs]
      simp
  | s :: s2 :: rest, _ => by
    simp only [chooseSep]
    by_cases hs : s.isEmpty = true
    · rw [if_pos hs]
      simp
    · rw [if_neg hs]
      by_cases ho : occursIn s text = true
      · rw [if_pos ho]
        simp
      · rw [if_neg ho]
        have hlt := chooseSep_snd_lt text (s2 :: rest) (List.cons_ne_nil _ _)
        simp only [List.length_cons] at hlt ⊢
        omega

theorem chooseSep_fst_empty_snd (text : List Char) :
    ∀ seps : List (List Char),
      (chooseSep text seps).1.isEmpty = true → (chooseSep text seps).2 = []
  | [], _ => rfl
  | [s], _ => by
    by_cases hs : s.isEmpty = true
    · simp [chooseSep, hs]
    · simp [chooseSep, hs]
  | s :: s2 :: rest, h => by
    by_cases hs : s.isEmpty = true
    · simp [chooseSep, hs]
    · simp only [chooseSep, if_neg hs] at h ⊢
      by_cases ho : occursIn s text = true
      · rw [if_pos ho] at h
        exact absurd h hs
      · rw [if_neg ho] at h ⊢
        exact chooseSep_fst_empty_snd text (s2 :: rest) h

theorem chooseSep_cases (text : List Char) :
    ∀ seps : List (List Char), seps.getLast? = some ([] : List Char) →
      (chooseSep text seps).1.isEmpty = true ∨ (chooseSep text seps).2 ≠ []
  | [], h => by simp at h
  | [s], h => by
    have hs : s = [] := by simpa using h
    subst hs
    left
    rfl
  | s :: s2 :: rest, h => by
    rw [List.getLast?_cons_cons] at h
    by_cases hs : s.isEmpty = true
    · left
      simp [chooseSep, hs]
    · by_cases ho : occursIn s text = true
      · right
        simp [chooseSep, hs, ho]
      · simp only [chooseSep, if_neg hs, if_neg ho]
        exact chooseSep_cases text (s2 :: rest) h

theorem chooseSep_snd_getLast (text : List Char) :
    ∀ seps : List (List Char), (chooseSep text seps).2 ≠ [] →
      (chooseSep text seps).2.getLast? = seps.getLast?
  | [], h => absurd rfl h
  | [s], h => by
    by_cases hs : s.isEmpty = true
    · exact absurd (by simp [chooseSep, hs]) h
    · exact absurd (by simp [chooseSep, hs]) h
  | s :: s2 :: rest, h => by
    rw [List.getLast?_cons_cons]
    by_cases hs : s.isEmpty = true
    · exact absurd (by simp [chooseSep, hs]) h
    · by_cases ho : occursIn s text = true
      · simp [chooseSep, hs, ho]
      · simp only [chooseSep, if_neg hs, if_neg ho] at h ⊢
        exact chooseSep_snd_getLast text (s2 :: rest) h

/-! ## Chunker lemmas: the recursive splitter -/

theorem splitTextF_nil_seps (cs co fuel : Nat) (text : List Char) :
    splitTextF cs co fuel [] text = [] := by
  cases fuel <;> rfl

theorem splitLoopG_bound (cs co : Nat) (recFn : List Char → List (List Char)) (nse : Bool)
    (hrec : ∀ s c, c ∈ recFn s → c.length ≤ cs) :
    ∀ (splits goods : List (List Char)),
      (∀ g ∈ goods, g.length < cs) →
      (nse = true → ∀ s ∈ splits, s.length ≤ cs) →
      ∀ c ∈ splitLoopG cs co recFn nse goods splits, c.length ≤ cs
  | [], goods, hg, _, c, hc => by
    simp only [splitLoopG] at hc
    by_cases hgo : goods.isEmpty = true
    · rw [if_pos hgo] at hc
      cases hc
    · rw [if_neg hgo] at hc
      unfold mergeSplits at hc
      exact mergeGo_bound cs co goods.reverse []
        (fun g hgm => hg g (List.mem_reverse.mp hgm)) (by simp [sumLens_nil]) c hc
  | s :: rest, goods, hg, hdir, c, hc => by
    simp only [splitLoopG] at hc
    by_cases hlen : s.length < cs
    · rw [if_pos hlen] at hc
      refine splitLoopG_bound cs co recFn nse hrec rest (s :: goods) ?_ ?_ c hc
      · intro g hgm
        rcases List.mem_cons.mp hgm with rfl | h2
        · exact hlen
        · exact hg g h2
      · intro hn s2 hs2
        exact hdir hn s2 (List.mem_cons_of_mem s hs2)
    · rw [if_neg hlen] at hc
      rcases List.mem_append.mp hc with h12 | h3
      · rcases List.mem_append.mp h12 with h1 | h2
        · by_cases hgo : goods.isEmpty = true
          · rw [if_pos hgo] at h1
            cases h1
          · rw [if_neg hgo] at h1
            unfold mergeSplits at h1
            exact mergeGo_bound cs co goods.reverse []
              (fun g hgm => hg g (List.mem_reverse.mp hgm)) (by simp [sumLens_nil]) c h1
        · by_cases hn : nse = true
          · rw [if_pos hn] at h2
            rcases List.mem_singleton.mp h2 with rfl
            exact hdir hn c (List.mem_cons_self c rest)
          · rw [if_neg hn] at h2
            exact hrec s c h2
      · exact splitLoopG_bound cs co recFn nse hrec rest [] (by intro g h; cases h)
          (fun hn s2 hs2 => hdir hn s2 (List.mem_cons_of_mem s hs2)) c h3

theorem splitLoopG_white (cs co : Nat) (recFn : List Char → List (List Char)) (nse : Bool)
    (hrec : ∀ s, allWhite s → recFn s = []) :
    ∀ (splits goods : List (List Char)),
      (∀ s ∈ splits, allWhite s) → (∀ g ∈ goods, allWhite g) →
      (nse = true → ∀ s ∈ splits, s.length < cs) →
      splitLoopG cs co recFn nse goods splits = []
  | [], goods, _, hgw, _ => by
    simp only [splitLoopG]
    by_cases hgo : goods.isEmpty = true
    · rw [if_pos hgo]
    · rw [if_neg hgo]
      unfold mergeSplits
      exact mergeGo_white cs co goods.reverse []
        (fun g h => hgw g (List.mem_reverse.mp h)) (by intro x h; cases h)
  | s :: rest, goods, hsw, hgw, hdir => by
    simp only [splitLoopG]
    by_cases hlen : s.length < cs
    · rw [if_pos hlen]
      exact splitLoopG_white cs co recFn nse hrec rest (s :: goods)
        (fun s2 h => hsw s2 (List.mem_cons_of_mem s h))
        (by
          intro g hgm
          rcases List.mem_cons.mp hgm with rfl | h2
          · exact hsw _ (List.mem_cons_self _ rest)
          · exact hgw g h2)
        (fun hn s2 hs2 => hdir hn s2 (List.mem_cons_of_mem s hs2))
    · rw [if_neg hlen]
      by_cases hn : nse = true
      · exact absurd (hdir hn s (List.mem_cons_self s rest)) hlen
      · have hflush : (if goods.isEmpty = true then [] else mergeSplits cs co [] goods.reverse) = [] := by
          by_cases hgo : goods.isEmpty = true
          · rw [if_pos hgo]
          · rw [if_neg hgo]
            unfold mergeSplits
            exact mergeGo_white cs co goods.reverse []
              (fun g h => hgw g (List.mem_reverse.mp h)) (by intro x h; cases h)
        have hmid : (if nse = true then [s] else recFn s) = [] := by
          rw [if_neg hn]
          exact hrec s (hsw s (List.mem_cons_self s rest))
        have htail : splitLoopG cs co recFn nse [] rest = [] :=
          splitLoopG_white cs co recFn nse hrec rest []
            (fun s2 h => hsw s2 (List.mem_cons_of_mem s h)) (by intro g h; cases h)
            (fun hn2 s2 hs2 => hdir hn2 s2 (List.mem_cons_of_mem s hs2))
        rw [hflush, hmid, htail]
        rfl

theorem splitLoopG_nonwhite (cs co : Nat) (recFn : List Char → List (List Char)) (nse : Bool)
    (hrec : nse = false → ∀ s, (∃ c ∈ s, ¬ c.isWhitespace = true) → recFn s ≠ []) :
    ∀ (splits goods : List (List Char)),
      (∃ x, (x ∈ goods ∨ x ∈ splits) ∧ ∃ c ∈ x, ¬ c.isWhitespace = true) →
      splitLoopG cs co recFn nse goods splits ≠ [] := by
  intro splits
  induction splits with
  | nil =>
    intro goods hex
    obtain ⟨x, hx, c, hc, hw⟩ := hex
    rcases hx with hx | hx
    · simp only [splitLoopG]
      have hgo : ¬ goods.isEmpty = true := by
        intro habs
        rw [List.isEmpty_iff] at habs
        rw [habs] at hx
        cases hx
      rw [if_neg hgo]
      unfold mergeSplits
      exact mergeGo_nonwhite cs co goods.reverse []
        ⟨x, Or.inr (List.mem_reverse.mpr hx), c, hc, hw⟩
    · cases hx
  | cons s rest ih =>
    intro goods hex
    obtain ⟨x, hx, c, hc, hw⟩ := hex
    simp only [splitLoopG]
    by_cases hlen : s.length < cs
    · rw [if_pos hlen]
      refine ih (s :: goods) ⟨x, ?_, c, hc, hw⟩
      rcases hx with hx | hx
      · exact Or.inl (List.mem_cons_of_mem s hx)
      · rcases List.mem_cons.mp hx with rfl | hx2
        · exact Or.inl (List.mem_cons_self x goods)
        · exact Or.inr hx2
    · rw [if_neg hlen]
      intro habs
      rcases List.append_eq_nil.mp habs with ⟨hab1, htail⟩
      rcases List.append_eq_nil.mp hab1 with ⟨hflush, hmid⟩
      rcases hx with hxg | hxs
      · have hgo : ¬ goods.isEmpty = true := by
          intro h2
          rw [List.isEmpty_iff] at h2
          rw [h2] at hxg
          cases hxg
        rw [if_neg hgo] at hflush
        unfold mergeSplits at hflush
        exact mergeGo_nonwhite cs co goods.reverse []
          ⟨x, Or.inr (List.mem_reverse.mpr hxg), c, hc, hw⟩ hflush
      · rcases List.mem_cons.mp hxs with rfl | hxr
        · by_cases hn : nse = true
          · rw [if_pos hn] at hmid
            exact List.cons_ne_nil x [] hmid
          · rw [if_neg hn] at hmid
            exact hrec (Bool.eq_false_iff.mpr hn) x ⟨c, hc, hw⟩ hmid
        · exact ih [] ⟨x, Or.inr hxr, c, hc, hw⟩ htail

theorem splitTextF_bound (cs co : Nat) (hcs : 0 < cs) :
    ∀ (fuel : Nat) (seps : List (List Char)) (text : List Char),
      seps.getLast? = some [] →
      ∀ c ∈ splitTextF cs co fuel seps text, c.length ≤ cs
  | 0, _, _, _, _, hc => by cases hc
  | fuel + 1, seps, text, hlast, c, hc => by
    simp only [splitTextF] at hc
    by_cases hse : seps.isEmpty = true
    · rw [if_pos hse] at hc
      cases hc
    · rw [if_neg hse] at hc
      by_cases hfe : (chooseSep text seps).1.isEmpty = true
      · rw [if_pos hfe] at hc
        have hns : (chooseSep text seps).2 = [] := chooseSep_fst_empty_snd text seps hfe
        refine splitLoopG_bound cs co _ _ ?_ _ [] (by intro g h; cases h) ?_ c hc
        · intro s c2 hc2
          rw [hns, splitTextF_nil_seps] at hc2
          cases hc2
        · intro _ s hs
          rcases List.mem_filter.mp hs with ⟨hmem, _⟩
          rcases List.mem_map.mp hmem with ⟨ch, _, rfl⟩
          simpa using hcs
      · rw [if_neg hfe] at hc
        rcases chooseSep_cases text seps hlast with h1 | h2
        · exact absurd h1 hfe
        · have hlast2 : (chooseSep text seps).2.getLast? = some [] :=
            (chooseSep_snd_getLast text seps h2).trans hlast
          refine splitLoopG_bound cs co _ _ ?_ _ [] (by intro g h; cases h) ?_ c hc
          · intro s c2 hc2
            exact splitTextF_bound cs co hcs fuel _ s hlast2 c2 hc2
          · intro hn
            rw [List.isEmpty_iff] at hn
            exact absurd hn h2

theorem splitTextF_white (cs co : Nat) (hcs : 2 ≤ cs) :
    ∀ (fuel : Nat) (seps : List (List Char)) (text : List Char),
      seps.getLast? = some [] → allWhite text →
      splitTextF cs co fuel seps text = []
  | 0, _, _, _, _ => rfl
  | fuel + 1, seps, text, hlast, hwhite => by
    simp only [splitTextF]
    by_cases hse : seps.isEmpty = true
    · rw [if_pos hse]
    · rw [if_neg hse]
      by_cases hfe : (chooseSep text seps).1.isEmpty = true
      · rw [if_pos hfe]
        have hns : (chooseSep text seps).2 = [] := chooseSep_fst_empty_snd text seps hfe
        refine splitLoopG_white cs co _ _ ?_ _ [] ?_ (by intro g h; cases h) ?_
        · intro s _
          rw [hns, splitTextF_nil_seps]
        · intro s hs
          rcases List.mem_filter.mp hs with ⟨hmem, _⟩
          rcases List.mem_map.mp hmem with ⟨ch, hch, rfl⟩
          intro c2 hc2
          rcases List.mem_singleton.mp hc2 with rfl
          exact hwhite c2 hch
        · intro _ s hs
          rcases List.mem_filter.mp hs with ⟨hmem, _⟩
          rcases List.mem_map.mp hmem with ⟨ch, _, rfl⟩
          simpa using hcs
      · rw [if_neg hfe]
        rcases chooseSep_cases text seps hlast with h1 | h2
        · exact absurd h1 hfe
        · have hlast2 : (chooseSep text seps).2.getLast? = some [] :=
            (chooseSep_snd_getLast text seps h2).trans hlast
          refine splitLoopG_white cs co _ _ ?_ _ [] ?_ (by intro g h; cases h) ?_
          · intro s hsw
            exact splitTextF_white cs co hcs fuel _ s hlast2 hsw
          · intro s hs c2 hc2
            exact hwhite c2 (splitKeep_chars _ text s c2 hfe hs hc2)
          · intro hn
            rw [List.isEmpty_iff] at hn
            exact absurd hn h2

theorem splitTextF_nonwhite (cs co : Nat) :
    ∀ (fuel : Nat) (seps : List (List Char)) (text : List Char),
      seps.getLast? = some [] → seps.length ≤ fuel →
      (∃ c ∈ text, ¬ c.isWhitespace = true) →
      splitTextF cs co fuel seps text ≠ []
  | 0, seps, _, hlast, hfl, _ => by
    have hnil : seps = [] := List.length_eq_zero.mp (Nat.le_zero.mp hfl)
    rw [hnil] at hlast
    simp at hlast
  | fuel + 1, seps, text, hlast, hfl, hex => by
    obtain ⟨c, hc, hw⟩ := hex
    simp only [splitTextF]
    have hse : ¬ seps.isEmpty = true := by
      intro habs
      rw [List.isEmpty_iff] at habs
      rw [habs] at hlast
      simp at hlast
    rw [if_neg hse]
    by_cases hfe : (chooseSep text seps).1.isEmpty = true
    · rw [if_pos hfe]
      have hns : (chooseSep text seps).2 = [] := chooseSep_fst_empty_snd text seps hfe
      refine splitLoopG_nonwhite cs co _ _ ?_ _ [] ⟨[c], Or.inr ?_, c, ?_, hw⟩
      · intro hnf
        rw [hns] at hnf
        simp at hnf
      · refine List.mem_filter.mpr ⟨List.mem_map.mpr ⟨c, hc, rfl⟩, by simp⟩
      · exact List.mem_singleton.mpr rfl
    · rw [if_neg hfe]
      rcases chooseSep_cases text seps hlast with h1 | h2
      · exact absurd h1 hfe
      · have hlast2 : (chooseSep text seps).2.getLast? = some [] :=
          (chooseSep_snd_getLast text seps h2).trans hlast
        have hflen : (chooseSep text seps).2.length ≤ fuel := by
          have hlt := chooseSep_snd_lt text seps (by
            intro habs
            rw [habs] at hlast
            simp at hlast)
          omega
        rcases splitKeep_cover _ text c hfe hc with ⟨q, hq, hcq⟩
        refine splitLoopG_nonwhite cs co _ _ ?_ _ [] ⟨q, Or.inr hq, c, hcq, hw⟩
        intro _ s hexs
        exact splitTextF_nonwhite cs co fuel _ s hlast2 hflen hexs

/-! ## Claim theorems: chunk bounds and emptiness -/

theorem enumGo_snd_mem : ∀ (l : List α) (i : Nat) (p : Nat × α), p ∈ enumGo i l → p.2 ∈ l
  | [], _, _, h => by cases h
  | a :: as, i, p, h => by
    rcases List.mem_cons.mp h with rfl | h2
    · exact List.mem_cons_self _ _
    · exact List.mem_cons_of_mem a (enumGo_snd_mem as (i + 1) p h2)

theorem headD_mem_of_isEmpty_false (l : List α) (d : α) (h : l.isEmpty = false) :
    l.headD d ∈ l := by
  cases l with
  | nil => cases h
  | cons a as => exact List.mem_cons_self a as

/-- C6: for every configuration with chunk_overlap smaller than
chunk_size, every chunk produced by the chunker has content length at
most chunk_size characters. -/
theorem chunk_length_bounded (cs co : Nat) (text : String) (meta : String → Option MVal)
    (hco : co < cs) :
    ∀ ch ∈ chunkDocument cs co text meta, ch.content.length ≤ cs := by
  intro ch hch
  have hcs : 0 < cs := Nat.lt_of_le_of_lt (Nat.zero_le co) hco
  have hEq : chunkDocument cs co text meta =
      (enumGo 0 ((splitText cs co text.data).map String.mk)).map (mkChunk meta) := rfl
  rw [hEq] at hch
  rcases List.mem_map.mp hch with ⟨p, hp, rfl⟩
  have hsnd := enumGo_snd_mem _ 0 p hp
  rcases List.mem_map.mp hsnd with ⟨l, hl, hls⟩
  show (mkChunk meta p).content.length ≤ cs
  have hcnt : (mkChunk meta p).content = p.2 := rfl
  rw [hcnt, ← hls]
  show l.length ≤ cs
  exact splitTextF_bound cs co hcs defaultSeparators.length defaultSeparators text.data
    rfl l hl

/-- Witness for C6: the first chunk of a concrete document under the
default configuration is within the bound. -/
theorem chunk_length_bounded_witness :
    ((chunkDocument 500 50 "hi" metaW).headD dChunk).content.length ≤ 500 :=
  chunk_length_bounded 500 50 "hi" metaW (by decide) _
    (headD_mem_of_isEmpty_false _ dChunk (by rfl))

/-- C3 counterexample: on text that is empty after trimming,
chunk_document returns the empty list normally; it does not fail, and no
EmptyInputError exists anywhere in the code. -/
theorem chunk_document_empty_counterexample :
    chunkDocument 500 50 "" metaW = [] := rfl

/-- C3 (amended): chunk_document never fails; for chunk_size at least 2
(the pipeline default is 500) it returns zero chunks exactly when the
text is empty after trimming, hence at least one Chunk for every text
that is non-empty after trimming. -/
theorem chunk_document_empty_iff (cs co : Nat) (text : String)
    (meta : String → Option MVal) (hcs : 2 ≤ cs) :
    chunkDocument cs co text meta = [] ↔ trimL text.data = [] := by
  have hEq : chunkDocument cs co text meta =
      (enumGo 0 ((splitText cs co text.data).map String.mk)).map (mkChunk meta) := rfl
  have hlen : (chunkDocument cs co text meta).length = (splitText cs co text.data).length := by
    rw [hEq, List.length_map, enumGo_length, List.length_map]
  constructor
  · intro h
    rw [trimL_eq_nil_iff]
    by_contra hnw
    have hex : ∃ c ∈ text.data, ¬ c.isWhitespace = true := by
      unfold allWhite at hnw
      push_neg at hnw
      exact hnw
    have hne := splitTextF_nonwhite cs co defaultSeparators.length defaultSeparators
      text.data rfl (le_refl _) hex
    have hzero : (chunkDocument cs co text meta).length = 0 := by
      rw [h]
      rfl
    rw [hlen] at hzero
    exact hne (List.length_eq_zero.mp hzero)
  · intro h
    have hwhite : allWhite text.data := (trimL_eq_nil_iff _).mp h
    have hsplit : splitText cs co text.data = [] :=
      splitTextF_white cs co hcs defaultSeparators.length defaultSeparators text.data
        rfl hwhite
    rw [hEq, hsplit]
    rfl

/-- Witness for C3: at the default chunk_size, a concrete non-blank text
falls on the non-empty side of the equivalence. -/
theorem chunk_document_empty_iff_witness :
    (chunkDocument 500 50 "hi" metaW = [] ↔ trimL "hi".data = []) :=
  chunk_document_empty_iff 500 50 "hi" metaW (by decide)

end OceanAi
